import Mathlib

/-!
# rbranch: branch lister, selection model and action dispatcher

Shallow embedding of `main.go`.

* A Go `string` is modelled by a Lean `String`, that is by the sequence of runes it
  decodes to (the text is taken to be valid UTF-8).
* Calls that reach outside the process (running `git`, printing, writing the clipboard)
  are recorded as a trace of `Effect`s; what the outside world answers (the captured
  output, whether the command failed) is an explicit argument.
* The package-level flag variables `cFlag` and `dFlag` are passed explicitly as `Flags`.
-/

namespace Rbranch

/-! ## Effects -/

/-- Calls that leave the process, in the order they are made. -/
inductive Effect where
  /-- A line printed with `fmt.Println`. -/
  | Println (text : String)
  /-- An external command run with `exec.Command(name, args...).CombinedOutput()`. -/
  | Command (name : String) (args : List String)
  /-- A string written with `clipboard.WriteAll`. -/
  | ClipboardWriteAll (text : String)
  deriving DecidableEq, Repr

/-! ## The pieces of Go's `unicode` and `strings` packages used by the parser -/

namespace unicode

/-- Go's `unicode.IsSpace`: the runes with the Unicode White_Space property, namely
`'\t'`, `'\n'`, `'\v'`, `'\f'`, `'\r'`, `' '`, U+0085, U+00A0, U+1680, U+2000..U+200A,
U+2028, U+2029, U+202F, U+205F and U+3000. -/
def IsSpace (r : Char) : Bool :=
  let n := r.toNat
  (0x09 ≤ n && n ≤ 0x0D) || n == 0x20 || n == 0x85 || n == 0xA0 || n == 0x1680 ||
  (0x2000 ≤ n && n ≤ 0x200A) || n == 0x2028 || n == 0x2029 || n == 0x202F ||
  n == 0x205F || n == 0x3000

end unicode

namespace strings

/-- Splitting a rune sequence at every occurrence of the rune `sep`. The result always has
one more piece than there are separators, so it is never empty. -/
def splitRunes : List Char → Char → List (List Char)
  | [], _ => [[]]
  | c :: cs, sep =>
    if c = sep then [] :: splitRunes cs sep
    else
      match splitRunes cs sep with
      | [] => [[c]]
      | piece :: pieces => (c :: piece) :: pieces

/-- Go's `strings.Split(s, sep)` for a separator that is a single rune (the program only
calls it with `"\n"`): the substrings of `s` between the separators, in order. -/
def Split (s : String) (sep : Char) : List String :=
  (splitRunes s.data sep).map String.mk

/-- Go's `strings.TrimPrefix(s, prefix)`: `s` without the leading `prefix`, and `s` itself
when it does not start with `prefix`. -/
def TrimPrefix (s pre : String) : String :=
  if pre.data.isPrefixOf s.data then ⟨s.data.drop pre.data.length⟩ else s

/-- Go's `strings.TrimSpace(s)`: `s` with all leading and trailing white space, as defined
by `unicode.IsSpace`, removed. -/
def TrimSpace (s : String) : String :=
  ⟨(s.data.dropWhile unicode.IsSpace).rdropWhile unicode.IsSpace⟩

end strings

/-- Go's builtin `len` on a string: its length in bytes. -/
def len (s : String) : Nat := s.utf8ByteSize

/-! ## Branch lister -/

/-- One turn of the `for _, line := range lines` loop of `getAvailableBranches`. -/
def appendBranch (branches : List String) (line : String) : List String :=
  let branch := strings.TrimSpace (strings.TrimPrefix line "*")
  if len branch > 0 then branches ++ [branch] else branches

/-- The value of `branch` the loop computes from one line. -/
def trimLine (line : String) : String :=
  strings.TrimSpace (strings.TrimPrefix line "*")

/-- The function `getAvailableBranches`. `output` and `err` are what
`exec.Command("git", "branch").CombinedOutput()` returned (`err = true` stands for
`err != nil`). The result is the trace of what was printed and the returned slice. -/
def getAvailableBranches (output : String) (err : Bool) : List Effect × List String :=
  let printed :=
    if err then [Effect.Println "You must be in a git repository to run this command"]
    else []
  let lines := strings.Split output '\n'
  (printed, lines.foldl appendBranch [])

/-! ## The listing format read by the branch lister -/

/-- A string made only of white space that stays within one line. -/
def InlineBlank (s : String) : Prop :=
  ∀ c ∈ s.data, unicode.IsSpace c = true ∧ c ≠ '\n'

instance (s : String) : Decidable (InlineBlank s) := by
  unfold InlineBlank; infer_instance

/-- A branch name as the listing shows it: not empty, within one line, with no white space
at either end and not starting with the marker `*`. -/
def ListedName (s : String) : Prop :=
  s ≠ "" ∧ '\n' ∉ s.data ∧
  (∀ c, s.data.head? = some c → unicode.IsSpace c = false ∧ c ≠ '*') ∧
  (∀ c, s.data.getLast? = some c → unicode.IsSpace c = false)

/-- One line of a branch listing: a blank line, or a branch name that may carry the
current-branch marker `*` at the start of the line and blanks around the name. -/
inductive ListingLine where
  | blank (ws : String)
  | entry (marked : Bool) (before name after : String)
  deriving Repr

namespace ListingLine

/-- The text of a listing line. -/
def text : ListingLine → String
  | blank ws => ws
  | entry marked before name after =>
    (if marked then "*" else "") ++ before ++ name ++ after

/-- The line is laid out as the listing format prescribes. -/
def WellFormed : ListingLine → Prop
  | blank ws => InlineBlank ws
  | entry _ before name after => InlineBlank before ∧ ListedName name ∧ InlineBlank after

/-- The branch name a listing line carries, if any. -/
def name? : ListingLine → Option String
  | blank _ => none
  | entry _ _ name _ => some name

end ListingLine

/-- Lines joined by line breaks, with no line break after the last one. -/
def joinLines : List String → String
  | [] => ""
  | [l] => l
  | l :: ls => l ++ "\n" ++ joinLines ls

/-- The text of a whole listing. -/
def listingText (ls : List ListingLine) : String :=
  joinLines (ls.map ListingLine.text)

/-- The branch names of a listing, in the order of their lines. -/
def listingNames (ls : List ListingLine) : List String :=
  ls.filterMap ListingLine.name?

/-! ## Terminal action dispatcher -/

/-- The package-level variables `cFlag` and `dFlag`, set by `initializeCommandFlags`. -/
structure Flags where
  cFlag : Bool
  dFlag : Bool
  deriving DecidableEq, Repr

/-- The function `checkoutBranch`. `fails` tells whether the external command returns an
error; the message rendered in that case is dropped by the source, so nothing is added to
the trace. -/
def checkoutBranch (fails : List String → Bool) (selectedBranch : String) : List Effect :=
  let ran := [Effect.Command "git" ["checkout", selectedBranch]]
  if fails ["checkout", selectedBranch] then ran else ran

/-- The function `copyBranch`. -/
def copyBranch (selectedBranch : String) : List Effect :=
  [Effect.ClipboardWriteAll selectedBranch]

/-- The function `deleteBranch`. As in `checkoutBranch` the rendered error message is
dropped. -/
def deleteBranch (fails : List String → Bool) (selectedBranch : String) : List Effect :=
  let ran := [Effect.Command "git" ["branch", "-D", selectedBranch]]
  if fails ["branch", "-D", selectedBranch] then ran else ran

/-- The function `executeGitCommand`: the copy flag is tested first, then the delete flag,
and checkout is the default. -/
def executeGitCommand (flags : Flags) (fails : List String → Bool)
    (selectedBranch : String) : List Effect :=
  if flags.cFlag then copyBranch selectedBranch
  else if flags.dFlag then deleteBranch fails selectedBranch
  else checkoutBranch fails selectedBranch

/-! ## Selection list -/

/-- The interface `list.Item` with the dynamic types a value can have: the program's own
type `item` (a string), or some other type. -/
inductive Item where
  | item (branch : String)
  | other (tag : Nat)
  deriving DecidableEq, Repr

/-- The function `buildBranchSelectionList`: appends one `item` per branch, in order. -/
def buildBranchSelectionList (branches : List String) : List Item :=
  branches.foldl (fun items branch => items ++ [Item.item branch]) []

/-- The constant `WIDTH`. -/
def WIDTH : Nat := 5

/-- The constant `HEIGHT`. -/
def HEIGHT : Nat := 12

namespace list

/-- Modelled from the spec: the list state kept by the list collaborator (`list.Model` of
the bubbles library, which is not part of this repository): the ordered items, the
zero-based highlighted index, the window size and the title. -/
structure Model where
  items : List Item
  index : Nat
  width : Nat
  height : Nat
  title : String
  deriving DecidableEq, Repr

/-- Modelled from the spec: `SelectedItem`, the item at the highlighted index, and nothing
when no item is highlighted (the list is empty or the index is out of range). -/
def Model.SelectedItem (m : Model) : Option Item :=
  m.items.get? m.index

/-- Modelled from the spec: `SetWidth` updates the rendering width and nothing else. -/
def Model.SetWidth (m : Model) (w : Nat) : Model :=
  { m with width := w }

end list

/-- The function `configureSelectionList`: a new list over `items`, first item
highlighted. -/
def configureSelectionList (items : List Item) : list.Model :=
  { items := items, index := 0, width := WIDTH, height := HEIGHT, title := "Select a branch" }

namespace tea

/-- The messages of the event loop (`tea.Msg`): a resize, a key press identified by the
name `msg.String()` gives it, or anything else. -/
inductive Msg where
  | WindowSizeMsg (Width Height : Nat)
  | KeyMsg (keypress : String)
  | other (tag : Nat)
  deriving DecidableEq, Repr

/-- The commands a handler can return (`tea.Cmd`, with `nil` modelled by `none`):
`tea.Quit`, or a command of the list collaborator. -/
inductive Cmd where
  | Quit
  | other (tag : Nat)
  deriving DecidableEq, Repr

end tea

/-- Modelled from the spec: the list collaborator's own `Update` (bubbles, not part of this
repository), with the clamping policy: the navigation keys move the highlighted index by
one without leaving the list, any other input changes nothing, and no command is issued. -/
def list.Model.Update (m : list.Model) (msg : tea.Msg) : list.Model × Option tea.Cmd :=
  match msg with
  | tea.Msg.KeyMsg "up" => ({ m with index := m.index - 1 }, none)
  | tea.Msg.KeyMsg "down" =>
    (if m.index + 1 < m.items.length then { m with index := m.index + 1 } else m, none)
  | _ => (m, none)

/-- The struct `model`. -/
structure model where
  list : list.Model
  choice : String
  quitting : Bool
  deriving DecidableEq, Repr

/-- What `View` returns: the styled farewell text `quitTextStyle.Render(text)`, or the frame
of the list, `"\n" + m.list.View()`. -/
inductive Frame where
  | quitText (text : String)
  | listView (l : list.Model)
  deriving DecidableEq, Repr

/-- The state `Browsing`: nothing chosen and not quitting. -/
def model.Browsing (m : model) : Prop :=
  m.choice = "" ∧ m.quitting = false

instance (m : model) : Decidable m.Browsing := by
  unfold model.Browsing; infer_instance

/-- The method `model.Init`. -/
def model.Init (_m : model) : Option tea.Cmd := none

/-- The method `model.Update`. `listUpdate` is the list collaborator's `Update`, to which
every message not handled here is forwarded. -/
def model.Update (listUpdate : list.Model → tea.Msg → list.Model × Option tea.Cmd)
    (m : model) (msg : tea.Msg) : model × Option tea.Cmd :=
  match msg with
  | tea.Msg.WindowSizeMsg w _ => ({ m with list := m.list.SetWidth w }, none)
  | tea.Msg.KeyMsg "ctrl+c" => ({ m with quitting := true }, some tea.Cmd.Quit)
  | tea.Msg.KeyMsg "enter" =>
    match m.list.SelectedItem with
    | some (Item.item i) => ({ m with choice := i }, some tea.Cmd.Quit)
    | _ => (m, some tea.Cmd.Quit)
  | msg =>
    let (l, cmd) := listUpdate m.list msg
    ({ m with list := l }, cmd)

/-- The method `model.View`: the trace of the action it runs when a branch is chosen, and
the frame it returns. -/
def model.View (flags : Flags) (fails : List String → Bool) (m : model) :
    List Effect × Frame :=
  let ran := if m.choice ≠ "" then executeGitCommand flags fails m.choice else []
  if m.quitting then (ran, Frame.quitText "See ya later!")
  else (ran, Frame.listView m.list)

/-- The model `main` starts the program with. -/
def initialModel (branches : List String) : model :=
  { list := configureSelectionList (buildBranchSelectionList branches),
    choice := "", quitting := false }

/-- Modelled from the spec: the selection loop (the program runner of the bubbletea
library, which is not part of this repository). Each event is handled by `Update` and
followed by one `View` render; when `Update` issues the quit command the loop exits and the
final model is rendered once more. The result is the final model and the trace of all
renders. -/
def runLoop (listUpdate : list.Model → tea.Msg → list.Model × Option tea.Cmd)
    (flags : Flags) (fails : List String → Bool) : model → List tea.Msg → model × List Effect
  | m, [] => (m, [])
  | m, msg :: rest =>
    let next := model.Update listUpdate m msg
    let rendered := (model.View flags fails next.1).1
    if next.2 = some tea.Cmd.Quit then
      (next.1, rendered ++ (model.View flags fails next.1).1)
    else
      let later := runLoop listUpdate flags fails next.1 rest
      (later.1, rendered ++ later.2)


/-! ## Auxiliary facts about the string functions -/

theorem len_pos_iff (s : String) : 0 < len s ↔ s ≠ "" := by
  cases s with
  | mk cs =>
    cases cs with
    | nil => simp [len]; rfl
    | cons c cs =>
      have h := Char.utf8Size_pos c
      have hne : (String.mk (c :: cs)) ≠ "" := by
        intro h
        have hd := congrArg String.data h
        simp at hd
      simp only [len, String.utf8ByteSize_mk, String.utf8Len_cons, ne_eq, hne, not_false_eq_true,
        iff_true]
      omega

theorem foldl_appendBranch (lines acc : List String) :
    lines.foldl appendBranch acc
      = acc ++ (lines.map trimLine).filter (fun b => decide (0 < len b)) := by
  induction lines generalizing acc with
  | nil => simp
  | cons l ls ih =>
    rw [List.foldl_cons, ih]
    by_cases h : 0 < len (trimLine l)
    · have h2 : 0 < len (strings.TrimSpace (strings.TrimPrefix l "*")) := h
      simp [appendBranch, h, h2, trimLine]
    · have h2 : ¬ 0 < len (strings.TrimSpace (strings.TrimPrefix l "*")) := h
      simp [appendBranch, h, h2, trimLine]

theorem mem_getAvailableBranches {output : String} {err : Bool} {b : String}
    (h : b ∈ (getAvailableBranches output err).2) :
    b ≠ "" ∧ ∃ line ∈ strings.Split output '\n', b = trimLine line := by
  simp only [getAvailableBranches, foldl_appendBranch, List.nil_append, List.mem_filter,
    List.mem_map, decide_eq_true_eq] at h
  obtain ⟨⟨line, hl, rfl⟩, hpos⟩ := h
  exact ⟨(len_pos_iff _).1 hpos, line, hl, rfl⟩

theorem TrimSpace_head (s : String) (c : Char)
    (h : (strings.TrimSpace s).data.head? = some c) : unicode.IsSpace c = false := by
  simp only [strings.TrimSpace] at h
  obtain ⟨t, ht⟩ := List.rdropWhile_prefix unicode.IsSpace (s.data.dropWhile unicode.IsSpace)
  cases hr : List.rdropWhile unicode.IsSpace (s.data.dropWhile unicode.IsSpace) with
  | nil => rw [hr] at h; simp at h
  | cons x xs =>
    rw [hr] at h ht
    simp at h
    subst h
    have hne : s.data.dropWhile unicode.IsSpace ≠ [] := by rw [← ht]; simp
    have := List.head_dropWhile_not unicode.IsSpace s.data hne
    simp only [← ht, List.cons_append, List.head_cons] at this
    simpa using this

theorem TrimSpace_getLast (s : String) (c : Char)
    (h : (strings.TrimSpace s).data.getLast? = some c) : unicode.IsSpace c = false := by
  simp only [strings.TrimSpace] at h
  have hne : List.rdropWhile unicode.IsSpace (s.data.dropWhile unicode.IsSpace) ≠ [] := by
    intro h0; rw [h0] at h; simp at h
  have := List.rdropWhile_last_not unicode.IsSpace (s.data.dropWhile unicode.IsSpace) hne
  rw [List.getLast?_eq_getLast _ hne] at h
  simp at h
  rw [h] at this
  simpa using this

theorem TrimSpace_sublist (s : String) : (strings.TrimSpace s).data.Sublist s.data :=
  ((List.rdropWhile_prefix unicode.IsSpace _).sublist).trans (List.dropWhile_sublist _)

theorem star_not_mem_TrimPrefix (line : String) (h : '*' ∉ line.data.drop 1) :
    '*' ∉ (strings.TrimPrefix line "*").data := by
  cases line with
  | mk cs =>
    cases cs with
    | nil => simp [strings.TrimPrefix]
    | cons c cs =>
      have hstar : ("*" : String).data = ['*'] := rfl
      simp only [List.drop_succ_cons, List.drop_zero] at h
      by_cases hc : c = '*'
      · subst hc
        simpa [strings.TrimPrefix, hstar, List.isPrefixOf] using h
      · have hc2 : ¬ '*' = c := fun e => hc e.symm
        simp [strings.TrimPrefix, hstar, List.isPrefixOf, hc2, h]

/-! ## Branch lister: what every entry looks like -/

/-- C1: for every captured output (and whether or not the command failed), every entry
returned by `getAvailableBranches` is a non-empty string whose first and last runes are not
white space. -/
theorem getAvailableBranches_entries_trimmed (output : String) (err : Bool) :
    ∀ b ∈ (getAvailableBranches output err).2,
      b ≠ "" ∧
      (∀ c, b.data.head? = some c → unicode.IsSpace c = false) ∧
      (∀ c, b.data.getLast? = some c → unicode.IsSpace c = false) := by
  intro b hb
  obtain ⟨hne, line, _, rfl⟩ := mem_getAvailableBranches hb
  exact ⟨hne, fun c hc => TrimSpace_head _ c hc, fun c hc => TrimSpace_getLast _ c hc⟩

/-- Witness for C1: the entry `develop` read from the output `"main\n* develop \n"`. -/
theorem getAvailableBranches_entries_trimmed_witness :
    "develop" ∈ (getAvailableBranches "main\n* develop \n" false).2 ∧
    ("develop" ≠ "" ∧
      (∀ c, "develop".data.head? = some c → unicode.IsSpace c = false) ∧
      (∀ c, "develop".data.getLast? = some c → unicode.IsSpace c = false)) :=
  ⟨by decide,
   getAvailableBranches_entries_trimmed "main\n* develop \n" false "develop" (by decide)⟩

/-- C2, as stated, fails: a line whose marker is indented, `"  * develop"`, yields the
entry `"* develop"`, which begins with `*`. -/
theorem getAvailableBranches_entry_starts_with_marker :
    ¬ (∀ b ∈ (getAvailableBranches "  * develop" false).2, b.data.head? ≠ some '*') := by
  decide

/-- C2, amended: when `*` occurs in the lines of the output only as the first character of
a line, no entry returned by `getAvailableBranches` begins with `*` (in fact no entry
contains `*`). -/
theorem getAvailableBranches_no_marker (output : String) (err : Bool)
    (h : ∀ line ∈ strings.Split output '\n', '*' ∉ line.data.drop 1) :
    ∀ b ∈ (getAvailableBranches output err).2, b.data.head? ≠ some '*' ∧ '*' ∉ b.data := by
  intro b hb
  obtain ⟨_, line, hl, rfl⟩ := mem_getAvailableBranches hb
  have hnot : '*' ∉ (trimLine line).data := fun hm =>
    star_not_mem_TrimPrefix line (h line hl) ((TrimSpace_sublist _).subset hm)
  refine ⟨fun hh => hnot ?_, hnot⟩
  exact List.mem_of_mem_head? hh

/-- Witness for C2, amended: the output `"main\n  feature/x\n* develop\n"` and its entry
`develop`. -/
theorem getAvailableBranches_no_marker_witness :
    (∀ line ∈ strings.Split "main\n  feature/x\n* develop\n" '\n', '*' ∉ line.data.drop 1) ∧
    "develop" ∈ (getAvailableBranches "main\n  feature/x\n* develop\n" false).2 ∧
    ("develop".data.head? ≠ some '*' ∧ '*' ∉ "develop".data) :=
  ⟨by decide, by decide,
   getAvailableBranches_no_marker "main\n  feature/x\n* develop\n" false (by decide)
     "develop" (by decide)⟩

/-- C4: outside a repository `git branch` fails and its captured output is the error text
of git; `getAvailableBranches` prints its message and still returns that text as a
branch, so the returned list is not empty. -/
theorem getAvailableBranches_failure_keeps_output :
    getAvailableBranches
        "fatal: not a git repository (or any of the parent directories): .git\n" true
      = ([Effect.Println "You must be in a git repository to run this command"],
         ["fatal: not a git repository (or any of the parent directories): .git"]) := by
  decide

/-! ## Branch lister: reading back a listing -/

theorem splitRunes_of_not_mem (sep : Char) (l : List Char) (h : sep ∉ l) :
    strings.splitRunes l sep = [l] := by
  induction l with
  | nil => rfl
  | cons c cs ih =>
    simp only [List.mem_cons, not_or] at h
    have hc : ¬ c = sep := fun e => h.1 e.symm
    simp [strings.splitRunes, hc, ih h.2]

theorem splitRunes_append_sep (sep : Char) (l rest : List Char) (h : sep ∉ l) :
    strings.splitRunes (l ++ sep :: rest) sep = l :: strings.splitRunes rest sep := by
  induction l with
  | nil => simp [strings.splitRunes]
  | cons c cs ih =>
    simp only [List.mem_cons, not_or] at h
    have hc : ¬ c = sep := fun e => h.1 e.symm
    simp [strings.splitRunes, hc, ih h.2]

theorem Split_joinLines (ls : List String) (hne : ls ≠ [])
    (h : ∀ l ∈ ls, '\n' ∉ l.data) : strings.Split (joinLines ls) '\n' = ls := by
  induction ls with
  | nil => exact absurd rfl hne
  | cons l ls ih =>
    cases ls with
    | nil =>
      simp [strings.Split, joinLines, splitRunes_of_not_mem _ _ (h l (List.mem_cons_self _ _))]
    | cons l2 ls2 =>
      have hl := h l (List.mem_cons_self _ _)
      have hrest := ih (by simp) (fun x hx => h x (List.mem_cons_of_mem _ hx))
      have hnl : ("\n" : String).data = ['\n'] := rfl
      simp only [strings.Split] at hrest ⊢
      simp only [joinLines, String.data_append, hnl, List.append_assoc, List.singleton_append,
        splitRunes_append_sep _ _ _ hl, List.map_cons, hrest]

theorem dropWhile_append_of_all {p : Char → Bool} (xs ys : List Char)
    (h : ∀ c ∈ xs, p c = true) : (xs ++ ys).dropWhile p = ys.dropWhile p := by
  induction xs with
  | nil => rfl
  | cons x xs ih =>
    have hx := h x (List.mem_cons_self _ _)
    simp [List.dropWhile_cons, hx, ih (fun c hc => h c (List.mem_cons_of_mem _ hc))]

theorem rdropWhile_append_of_all {p : Char → Bool} (xs ys : List Char)
    (h : ∀ c ∈ ys, p c = true) : (xs ++ ys).rdropWhile p = xs.rdropWhile p := by
  unfold List.rdropWhile
  rw [List.reverse_append, dropWhile_append_of_all _ _ (fun c hc => h c (List.mem_reverse.1 hc))]

theorem TrimSpace_padded (before name after : String) (hb : InlineBlank before)
    (hn : ListedName name) (ha : InlineBlank after) :
    strings.TrimSpace (before ++ name ++ after) = name := by
  obtain ⟨hne, _, hhead, hlast⟩ := hn
  cases name with
  | mk ns =>
    cases ns with
    | nil => exact absurd rfl hne
    | cons n ns =>
      have hn0 : unicode.IsSpace n = false := (hhead n rfl).1
      have hcons : (n :: ns) ≠ [] := by simp
      have hl : ¬ unicode.IsSpace ((n :: ns).getLast hcons) = true := by
        have := hlast ((n :: ns).getLast hcons) (List.getLast?_eq_getLast _ hcons)
        simp [this]
      have h1 : (before.data ++ ((n :: ns) ++ after.data)).dropWhile unicode.IsSpace
          = (n :: ns) ++ after.data := by
        rw [dropWhile_append_of_all _ _ (fun c hc => (hb c hc).1)]
        simp [List.dropWhile_cons, hn0]
      have h2 : ((n :: ns) ++ after.data).rdropWhile unicode.IsSpace = n :: ns := by
        rw [rdropWhile_append_of_all _ _ (fun c hc => (ha c hc).1)]
        exact List.rdropWhile_eq_self_iff.2 (fun _ => hl)
      simp only [strings.TrimSpace, String.data_append, List.append_assoc, h1, h2]

theorem TrimSpace_blank (ws : String) (h : InlineBlank ws) : strings.TrimSpace ws = "" := by
  have h1 : ws.data.dropWhile unicode.IsSpace = [] :=
    List.dropWhile_eq_nil_iff.2 (fun c hc => (h c hc).1)
  simp only [strings.TrimSpace, h1, List.rdropWhile_nil]

theorem TrimPrefix_star_of_head (s : String) (h : s.data.head? ≠ some '*') :
    strings.TrimPrefix s "*" = s := by
  cases s with
  | mk cs =>
    have hstar : ("*" : String).data = ['*'] := rfl
    cases cs with
    | nil => simp [strings.TrimPrefix, hstar]
    | cons c cs =>
      have hc : ¬ '*' = c := by
        intro e; apply h; simp [← e]
      simp [strings.TrimPrefix, hstar, List.isPrefixOf, hc]

theorem TrimPrefix_star_append (s : String) : strings.TrimPrefix ("*" ++ s) "*" = s := by
  have hstar : ("*" : String).data = ['*'] := rfl
  simp [strings.TrimPrefix, String.data_append, hstar, List.isPrefixOf]

theorem star_not_space : unicode.IsSpace '*' = false := by decide

theorem trimLine_text (l : ListingLine) (h : l.WellFormed) :
    trimLine l.text = (l.name?).getD "" := by
  cases l with
  | blank ws =>
    have hh : ws.data.head? ≠ some '*' := by
      intro e
      have := (h '*' (List.mem_of_mem_head? e)).1
      rw [star_not_space] at this
      cases this
    simp only [trimLine, ListingLine.text, TrimPrefix_star_of_head _ hh, ListingLine.name?,
      Option.getD_none]
    exact TrimSpace_blank ws h
  | entry marked before name after =>
    obtain ⟨hb, hn, ha⟩ := h
    simp only [ListingLine.name?, Option.getD_some, trimLine, ListingLine.text]
    cases marked with
    | true =>
      have : ("*" : String) ++ before ++ name ++ after = "*" ++ (before ++ name ++ after) := by
        simp [String.append_assoc]
      simp only [if_true, this, TrimPrefix_star_append]
      exact TrimSpace_padded _ _ _ hb hn ha
    | false =>
      have he : ("" : String) ++ before ++ name ++ after = before ++ name ++ after := by
        simp
      have hh : (before ++ name ++ after).data.head? ≠ some '*' := by
        intro e
        simp only [String.data_append, List.append_assoc] at e
        cases hbd : before.data with
        | nil =>
          rw [hbd] at e
          obtain ⟨hne, _, hhead, _⟩ := hn
          cases hnd : name.data with
          | nil => exact hne (by cases name; simp_all)
          | cons n ns =>
            rw [hnd] at e
            simp at e
            exact (hhead n (by rw [hnd]; rfl)).2 e
        | cons c cs =>
          rw [hbd] at e
          simp at e
          have := (hb c (by rw [hbd]; exact List.mem_cons_self _ _)).1
          rw [e, star_not_space] at this
          cases this
      simp only [Bool.false_eq_true, if_false, he, TrimPrefix_star_of_head _ hh]
      exact TrimSpace_padded _ _ _ hb hn ha

theorem newline_not_mem_text (l : ListingLine) (h : l.WellFormed) : '\n' ∉ l.text.data := by
  cases l with
  | blank ws => exact fun hm => (h '\n' hm).2 rfl
  | entry marked before name after =>
    obtain ⟨hb, hn, ha⟩ := h
    have hstar : ("*" : String).data = ['*'] := rfl
    have hempty : ("" : String).data = [] := rfl
    have h1 : '\n' ∉ before.data := fun hm => (hb '\n' hm).2 rfl
    have h2 : '\n' ∉ after.data := fun hm => (ha '\n' hm).2 rfl
    have h3 : '\n' ∉ name.data := hn.2.1
    cases marked <;>
      simp [ListingLine.text, String.data_append, hstar, hempty, h1, h2, h3]

theorem filter_trimLine_text (ls : List ListingLine) (h : ∀ l ∈ ls, l.WellFormed) :
    ((ls.map ListingLine.text).map trimLine).filter (fun b => decide (0 < len b))
      = listingNames ls := by
  induction ls with
  | nil => rfl
  | cons l ls ih =>
    have hl := h l (List.mem_cons_self _ _)
    have ih2 := ih (fun x hx => h x (List.mem_cons_of_mem _ hx))
    simp only [List.map_cons, List.filter_cons, trimLine_text l hl, listingNames,
      List.filterMap_cons] at ih2 ⊢
    cases l with
    | blank ws =>
      have h0 : ¬ 0 < len "" := by decide
      simp only [ListingLine.name?, Option.getD_none, h0, decide_False, Bool.false_eq_true,
        if_false]
      exact ih2
    | entry marked before name after =>
      have hpos : 0 < len name := (len_pos_iff name).2 hl.2.1.1
      simp only [ListingLine.name?, Option.getD_some, hpos, decide_True, if_true]
      rw [ih2]

/-- C3: for every listing made of well-formed lines (a blank line, or a branch name with an
optional marker `*` at the start of the line and blanks around the name), joined by line
breaks, `getAvailableBranches` returns exactly the branch names of the listing, in
order. -/
theorem getAvailableBranches_reads_listing (ls : List ListingLine) (err : Bool)
    (h : ∀ l ∈ ls, l.WellFormed) :
    (getAvailableBranches (listingText ls) err).2 = listingNames ls := by
  simp only [getAvailableBranches, foldl_appendBranch, List.nil_append]
  cases ls with
  | nil => decide
  | cons l ls =>
    have hsplit : strings.Split (listingText (l :: ls)) '\n'
        = (l :: ls).map ListingLine.text := by
      apply Split_joinLines
      · simp
      · intro t ht
        obtain ⟨x, hx, rfl⟩ := List.mem_map.1 ht
        exact newline_not_mem_text x (h x hx)
    rw [hsplit]
    exact filter_trimLine_text _ h

/-- Witness for C3: the lines `main`, `feature/x`, `* develop` yield
`["main", "feature/x", "develop"]`. -/
theorem getAvailableBranches_reads_listing_witness :
    (∀ l ∈ [ListingLine.entry false "" "main" "", ListingLine.entry false "" "feature/x" "",
        ListingLine.entry true " " "develop" ""], l.WellFormed) ∧
    listingText [ListingLine.entry false "" "main" "", ListingLine.entry false "" "feature/x" "",
        ListingLine.entry true " " "develop" ""] = "main\nfeature/x\n* develop" ∧
    listingNames [ListingLine.entry false "" "main" "", ListingLine.entry false "" "feature/x" "",
        ListingLine.entry true " " "develop" ""] = ["main", "feature/x", "develop"] ∧
    (getAvailableBranches (listingText [ListingLine.entry false "" "main" "",
        ListingLine.entry false "" "feature/x" "", ListingLine.entry true " " "develop" ""])
      false).2
      = listingNames [ListingLine.entry false "" "main" "",
          ListingLine.entry false "" "feature/x" "", ListingLine.entry true " " "develop" ""] :=
  ⟨by simp [ListingLine.WellFormed, InlineBlank, ListedName, unicode.IsSpace], by decide,
    by decide,
    getAvailableBranches_reads_listing _ false
      (by simp [ListingLine.WellFormed, InlineBlank, ListedName, unicode.IsSpace])⟩

/-! ## Terminal action dispatcher -/

/-- C10: for every selected branch and whatever the external command answers,
`executeGitCommand` performs exactly one action: with neither flag it runs
`git checkout b`; with only `-c` it writes `b` to the clipboard and runs no command; with
only `-d` it runs `git branch -D b`. -/
theorem executeGitCommand_single_flag (fails : List String → Bool) (b : String) :
    executeGitCommand { cFlag := false, dFlag := false } fails b
        = [Effect.Command "git" ["checkout", b]] ∧
    executeGitCommand { cFlag := true, dFlag := false } fails b
        = [Effect.ClipboardWriteAll b] ∧
    executeGitCommand { cFlag := false, dFlag := true } fails b
        = [Effect.Command "git" ["branch", "-D", b]] := by
  simp [executeGitCommand, checkoutBranch, copyBranch, deleteBranch]

/-- C5, as stated, fails: with both flags set, `executeGitCommand` on `main` does not run
the forced deletion and does write to the clipboard. -/
theorem executeGitCommand_both_flags_not_delete :
    ¬ (Effect.Command "git" ["branch", "-D", "main"]
          ∈ executeGitCommand { cFlag := true, dFlag := true } (fun _ => false) "main" ∧
       Effect.ClipboardWriteAll "main"
          ∉ executeGitCommand { cFlag := true, dFlag := true } (fun _ => false) "main") := by
  decide

/-- C5, amended: with both flags set, `executeGitCommand` resolves to the copy mode for
every branch: its only action is to write the branch name to the clipboard, and no command
is run. -/
theorem executeGitCommand_both_flags_copy (fails : List String → Bool) (b : String) :
    executeGitCommand { cFlag := true, dFlag := true } fails b = [Effect.ClipboardWriteAll b] := by
  simp [executeGitCommand, copyBranch]

/-! ## Selection model -/

theorem buildBranchSelectionList_eq_map (branches : List String) :
    buildBranchSelectionList branches = branches.map Item.item := by
  have key : ∀ (bs : List String) (acc : List Item),
      bs.foldl (fun items branch => items ++ [Item.item branch]) acc
        = acc ++ bs.map Item.item := by
    intro bs
    induction bs with
    | nil => simp
    | cons b bs ih => intro acc; simp [ih]
  simpa using key branches []

/-- C6: for every sequence of branch names `bs` and every index `k` below its length, on a
model in `Browsing` whose list holds the items built from `bs` with item `k` highlighted,
`Update` on the key `enter` sets the choice to the `k`-th name of `bs`, changes nothing
else, and issues the quit command. -/
theorem Update_enter_confirms
    (listUpdate : list.Model → tea.Msg → list.Model × Option tea.Cmd)
    (bs : List String) (k : Nat) (hk : k < bs.length) (m : model)
    (hitems : m.list.items = buildBranchSelectionList bs) (hindex : m.list.index = k)
    (_hbrowsing : m.Browsing) :
    model.Update listUpdate m (tea.Msg.KeyMsg "enter")
      = ({ m with choice := bs.get ⟨k, hk⟩ }, some tea.Cmd.Quit) := by
  have hsel : m.list.SelectedItem = some (Item.item (bs.get ⟨k, hk⟩)) := by
    simp [list.Model.SelectedItem, hitems, hindex, buildBranchSelectionList_eq_map,
      List.getElem?_eq_getElem hk]
  simp [model.Update, hsel]

/-- Witness for C6: the second of three branches is highlighted. -/
theorem Update_enter_confirms_witness :
    ({ list := { configureSelectionList
                    (buildBranchSelectionList ["main", "feature/x", "develop"]) with index := 1 },
       choice := "", quitting := false } : model).Browsing ∧
    model.Update list.Model.Update
        { list := { configureSelectionList
                      (buildBranchSelectionList ["main", "feature/x", "develop"]) with index := 1 },
          choice := "", quitting := false }
        (tea.Msg.KeyMsg "enter")
      = ({ list := { configureSelectionList
                      (buildBranchSelectionList ["main", "feature/x", "develop"]) with index := 1 },
           choice := "feature/x", quitting := false }, some tea.Cmd.Quit) :=
  ⟨by decide,
   Update_enter_confirms list.Model.Update ["main", "feature/x", "develop"] 1 (by decide)
     { list := { configureSelectionList
                  (buildBranchSelectionList ["main", "feature/x", "develop"]) with index := 1 },
       choice := "", quitting := false } rfl rfl (by decide)⟩

/-- C8, as stated, fails: on the starting model with no branches, `Update` on the key
`enter` does not return the unchanged model with no command: the quit command is
issued. -/
theorem Update_enter_empty_quits :
    ¬ (model.Update list.Model.Update (initialModel []) (tea.Msg.KeyMsg "enter")
        = (initialModel [], none)) := by
  decide

/-- C8, amended: for every model in `Browsing` whose list is empty, `Update` on the key
`enter` leaves the model unchanged and issues the quit command, and a `View` render of the
resulting model dispatches no terminal action. -/
theorem Update_enter_empty
    (listUpdate : list.Model → tea.Msg → list.Model × Option tea.Cmd)
    (flags : Flags) (fails : List String → Bool) (m : model)
    (hitems : m.list.items = []) (hbrowsing : m.Browsing) :
    model.Update listUpdate m (tea.Msg.KeyMsg "enter") = (m, some tea.Cmd.Quit) ∧
    (model.View flags fails (model.Update listUpdate m (tea.Msg.KeyMsg "enter")).1).1 = [] := by
  have hsel : m.list.SelectedItem = none := by
    simp [list.Model.SelectedItem, hitems]
  have hupd : model.Update listUpdate m (tea.Msg.KeyMsg "enter") = (m, some tea.Cmd.Quit) := by
    simp [model.Update, hsel]
  refine ⟨hupd, ?_⟩
  rw [hupd]
  simp [model.View, hbrowsing.1, hbrowsing.2]

/-- Witness for C8, amended: the starting model with no branches. -/
theorem Update_enter_empty_witness :
    (initialModel []).list.items = [] ∧ (initialModel []).Browsing ∧
    model.Update list.Model.Update (initialModel []) (tea.Msg.KeyMsg "enter")
      = (initialModel [], some tea.Cmd.Quit) ∧
    (model.View { cFlag := false, dFlag := false } (fun _ => false)
      (model.Update list.Model.Update (initialModel []) (tea.Msg.KeyMsg "enter")).1).1 = [] :=
  ⟨rfl, by decide,
   Update_enter_empty list.Model.Update { cFlag := false, dFlag := false } (fun _ => false)
     (initialModel []) rfl (by decide)⟩

/-- C9: for every model in `Browsing`, whatever its list and highlighted index, `Update` on
the key `ctrl+c` sets the quitting flag, changes nothing else (the choice stays empty) and
issues the quit command; a `View` render of the resulting model dispatches no terminal
action and returns the farewell text. -/
theorem Update_cancel
    (listUpdate : list.Model → tea.Msg → list.Model × Option tea.Cmd)
    (flags : Flags) (fails : List String → Bool) (m : model) (hbrowsing : m.Browsing) :
    model.Update listUpdate m (tea.Msg.KeyMsg "ctrl+c")
      = ({ m with quitting := true }, some tea.Cmd.Quit) ∧
    (model.Update listUpdate m (tea.Msg.KeyMsg "ctrl+c")).1.choice = "" ∧
    model.View flags fails (model.Update listUpdate m (tea.Msg.KeyMsg "ctrl+c")).1
      = ([], Frame.quitText "See ya later!") := by
  have hupd : model.Update listUpdate m (tea.Msg.KeyMsg "ctrl+c")
      = ({ m with quitting := true }, some tea.Cmd.Quit) := by
    simp [model.Update]
  refine ⟨hupd, ?_, ?_⟩
  · rw [hupd]; exact hbrowsing.1
  · rw [hupd]; simp [model.View, hbrowsing.1]

/-- Witness for C9: cancelling on the starting model over two branches, in delete mode. -/
theorem Update_cancel_witness :
    (initialModel ["main", "develop"]).Browsing ∧
    model.Update list.Model.Update (initialModel ["main", "develop"]) (tea.Msg.KeyMsg "ctrl+c")
      = ({ initialModel ["main", "develop"] with quitting := true }, some tea.Cmd.Quit) ∧
    (model.Update list.Model.Update (initialModel ["main", "develop"])
      (tea.Msg.KeyMsg "ctrl+c")).1.choice = "" ∧
    model.View { cFlag := false, dFlag := true } (fun _ => false)
        (model.Update list.Model.Update (initialModel ["main", "develop"])
          (tea.Msg.KeyMsg "ctrl+c")).1
      = ([], Frame.quitText "See ya later!") :=
  ⟨by decide,
   Update_cancel list.Model.Update { cFlag := false, dFlag := true } (fun _ => false)
     (initialModel ["main", "develop"]) (by decide)⟩

/-! ## Selection loop -/

/-- Confirming a highlighted branch ends the loop with the action in the trace twice: once
for the render that follows `Update`, once for the render of the final model. -/
theorem runLoop_enter_dispatches_twice
    (listUpdate : list.Model → tea.Msg → list.Model × Option tea.Cmd)
    (flags : Flags) (fails : List String → Bool) (m : model) (b : String)
    (rest : List tea.Msg) (hsel : m.list.SelectedItem = some (Item.item b)) (hb : b ≠ "") :
    runLoop listUpdate flags fails m (tea.Msg.KeyMsg "enter" :: rest)
      = ({ m with choice := b },
         executeGitCommand flags fails b ++ executeGitCommand flags fails b) := by
  have hupd : model.Update listUpdate m (tea.Msg.KeyMsg "enter")
      = ({ m with choice := b }, some tea.Cmd.Quit) := by
    simp [model.Update, hsel]
  have hview : (model.View flags fails { m with choice := b }).1
      = executeGitCommand flags fails b := by
    cases hq : m.quitting <;> simp [model.View, hb, hq]
  simp [runLoop, hupd, hview]

/-- C7: starting from the three branches `main`, `feature/x`, `develop` with no flag set,
the run "down, enter" confirms `feature/x` and the trace holds the checkout of
`feature/x` twice, not once. -/
theorem runLoop_confirm_dispatches_twice :
    runLoop list.Model.Update { cFlag := false, dFlag := false } (fun _ => false)
        (initialModel ["main", "feature/x", "develop"])
        [tea.Msg.KeyMsg "down", tea.Msg.KeyMsg "enter"]
      = ({ list := { configureSelectionList
                      (buildBranchSelectionList ["main", "feature/x", "develop"]) with index := 1 },
           choice := "feature/x", quitting := false },
         [Effect.Command "git" ["checkout", "feature/x"],
          Effect.Command "git" ["checkout", "feature/x"]]) := by
  decide

end Rbranch
